import Mathlib

/-!
Shallow embedding of the statistics computation logic of
`.github/scripts/update-stats.js`: the language-byte aggregation and
ranking of `getLanguageStats`, and the streak calculation of
`getStreakStats`.

Modelling conventions:
* ISO calendar dates are modelled as epoch-day integers (`Int`); the
  JavaScript expression `Math.floor((today - dayDate) / 86400000)` over
  midnight-truncated `Date` values is then exactly integer subtraction.
* JavaScript numbers are modelled as exact values (`Nat` counts and byte
  totals, `ℚ` for the percentage division); `Number.prototype.toFixed(1)`
  is modelled by its ECMAScript definition on the exact value: the
  integer `n` for which `n / 10 - x` is closest to zero, the larger `n`
  on ties, i.e. `⌊10 * x + 1 / 2⌋ / 10`.
* The insertion-ordered JavaScript object used as a running-sum map is
  modelled as an association list that updates an existing key in place
  and appends a new key at the end, which is the iteration order
  `Object.entries` exposes for string keys.
* `Array.prototype.sort` with comparator `(a, b) => b[1] - a[1]` is a
  stable descending sort by byte count; it is modelled by a stable
  descending insertion sort, which computes the same list.
-/

namespace UpdateStats

/-- One day of the contribution calendar: `{ date, count }` as built from
the GraphQL response, with the date as an epoch-day number. -/
structure ContributionDay where
  date : Int
  count : Nat
deriving DecidableEq, Repr

/-- The record returned by `getStreakStats`. -/
structure StreakResult where
  currentStreak : Nat
  longestStreak : Nat
  activeDaysThisYear : Nat
deriving DecidableEq, Repr

/-- The backward loop `for (let i = days.length - 1; i >= 0; i--)` of
`getStreakStats`, processed here over the reversed day list with the
mutable `currentStreak` as an accumulator: break when
`diffDays > currentStreak`; increment on `count > 0`; break on a zero
count only when `currentStreak > 0`. -/
def currentStreakLoop (today : Int) : List ContributionDay → Nat → Nat
  | [], streak => streak
  | d :: rest, streak =>
    if today - d.date > (streak : Int) then streak
    else if 0 < d.count then currentStreakLoop today rest (streak + 1)
    else if 0 < streak then streak
    else currentStreakLoop today rest streak

/-- The current-streak computation of `getStreakStats`. -/
def currentStreak (days : List ContributionDay) (today : Int) : Nat :=
  currentStreakLoop today days.reverse 0

/-- The forward loop of `getStreakStats` computing the longest streak:
`tempStreak` is reset on a zero-count day, and
`longestStreak = Math.max(longestStreak, tempStreak)` on an active day. -/
def longestStreakLoop : List ContributionDay → Nat → Nat → Nat
  | [], longest, _ => longest
  | d :: rest, longest, temp =>
    if 0 < d.count then longestStreakLoop rest (max longest (temp + 1)) (temp + 1)
    else longestStreakLoop rest longest 0

/-- The count `days.filter((day) => day.count > 0).length` of `getStreakStats`. -/
def activeDaysCount (days : List ContributionDay) : Nat :=
  (days.filter (fun d => 0 < d.count)).length

/-- The statistics computation of `getStreakStats` on an already fetched
day list, with `today` the midnight-truncated current date supplied as a
parameter. -/
def getStreakStats (days : List ContributionDay) (today : Int) : StreakResult :=
  { currentStreak := currentStreak days today
    longestStreak := longestStreakLoop days 0 0
    activeDaysThisYear := activeDaysCount days }

/-- The precondition the spec places on the day sequence: chronologically
ascending (which also rules out duplicate dates). -/
def Ascending : List ContributionDay → Prop
  | [] => True
  | [_] => True
  | a :: b :: rest => a.date < b.date ∧ Ascending (b :: rest)

/-- The gapless invariant of the spec: consecutive dates differ by
exactly one day. -/
def Gapless : List ContributionDay → Prop
  | [] => True
  | [_] => True
  | a :: b :: rest => b.date = a.date + 1 ∧ Gapless (b :: rest)

def decAscending : (l : List ContributionDay) → Decidable (Ascending l)
  | [] => .isTrue trivial
  | [_] => .isTrue trivial
  | a :: b :: rest =>
    have : Decidable (Ascending (b :: rest)) := decAscending (b :: rest)
    inferInstanceAs (Decidable (_ ∧ _))

def decGapless : (l : List ContributionDay) → Decidable (Gapless l)
  | [] => .isTrue trivial
  | [_] => .isTrue trivial
  | a :: b :: rest =>
    have : Decidable (Gapless (b :: rest)) := decGapless (b :: rest)
    inferInstanceAs (Decidable (_ ∧ _))

instance : DecidablePred Ascending := decAscending

instance : DecidablePred Gapless := decGapless

/-- One repository as seen by `getLanguageStats`: its fork flag and the
`/languages` response, an insertion-ordered map from language name to
byte count. -/
structure RepoLanguages where
  fork : Bool
  languages : List (String × Nat)
deriving DecidableEq, Repr

/-- The update `languageStats[lang] = (languageStats[lang] || 0) + bytes`
on the insertion-ordered object: add to an existing key in place, otherwise
append the new key at the end. -/
def addBytes : List (String × Nat) → String → Nat → List (String × Nat)
  | [], lang, bytes => [(lang, bytes)]
  | (l, b) :: rest, lang, bytes =>
    if l = lang then (l, b + bytes) :: rest
    else (l, b) :: addBytes rest lang bytes

/-- The inner `for (const [lang, bytes] of Object.entries(languages))`
loop: fold every language entry of one repository into the running map. -/
def addAll (stats : List (String × Nat)) (langs : List (String × Nat)) :
    List (String × Nat) :=
  langs.foldl (fun s p => addBytes s p.1 p.2) stats

/-- One iteration of the repository loop of `getLanguageStats`:
`if (repo.fork) continue;` then fold the repository's languages. -/
def addRepo (stats : List (String × Nat)) (repo : RepoLanguages) :
    List (String × Nat) :=
  if repo.fork then stats else addAll stats repo.languages

/-- The whole aggregation loop of `getLanguageStats`, producing the
`languageStats` object as an insertion-ordered association list. -/
def aggregate (repos : List RepoLanguages) : List (String × Nat) :=
  repos.foldl addRepo []

/-- Stable descending insertion by byte count: the inserted element `x`
goes after every earlier element with strictly more bytes and before the
first element with at most as many bytes, so an element of equal byte
count that occurred earlier in the list stays first. -/
def insertDesc (x : String × Nat) : List (String × Nat) → List (String × Nat)
  | [] => [x]
  | y :: ys => if x.2 < y.2 then y :: insertDesc x ys else x :: y :: ys

/-- The call `Object.entries(languageStats).sort((a, b) => b[1] - a[1])`:
a stable sort by byte count descending. -/
def sortDesc (l : List (String × Nat)) : List (String × Nat) :=
  l.foldr insertDesc []

/-- The `sorted` array of `getLanguageStats`: sort descending and
`.slice(0, 8)`. -/
def rankedEntries (repos : List RepoLanguages) : List (String × Nat) :=
  (sortDesc (aggregate repos)).take 8

/-- The sum `total = sorted.reduce((sum, [, bytes]) => sum + bytes, 0)`:
the byte total of the retained (top 8) entries only. -/
def retainedTotal (repos : List RepoLanguages) : ℚ :=
  (rankedEntries repos).foldl (fun sum p => sum + (p.2 : ℚ)) 0

/-- The `languageColors` table of `getLanguageStats` (official GitHub UI
colors). -/
def languageColors : List (String × String) :=
  [("JavaScript", "#f1e05a"), ("TypeScript", "#3178c6"),
   ("Python", "#3572A5"), ("Java", "#b07219"), ("C++", "#f34b7d"),
   ("C", "#555555"), ("C#", "#178600"), ("Ruby", "#701516"),
   ("Go", "#00ADD8"), ("Rust", "#dea584"), ("PHP", "#4F5D95"),
   ("Swift", "#ffac45"), ("Kotlin", "#A97BFF"), ("Dart", "#00B4AB"),
   ("HTML", "#e34c26"), ("CSS", "#563d7c"), ("Shell", "#89e051"),
   ("Vue", "#41b883"), ("Svelte", "#ff3e00"), ("Scala", "#c22d40"),
   ("Lua", "#000080"), ("R", "#198CE7"), ("Perl", "#0298c3"),
   ("Haskell", "#5e5086"), ("Elixir", "#6e4a7e"), ("Clojure", "#db5855"),
   ("Objective-C", "#438eff"), ("Vim Script", "#199f4b"),
   ("Jupyter Notebook", "#DA5B0B"), ("Makefile", "#427819"),
   ("Dockerfile", "#384d54"), ("Nix", "#7e7eff")]

/-- The lookup `languageColors[lang] || "#858585"`. -/
def colorOf (lang : String) : String :=
  ((languageColors.lookup lang).getD ("#858585"))

/-- One entry of the value returned by `getLanguageStats`; the
`percentage` string produced by `toFixed(1)` is modelled by its exact
numeric value. -/
structure LangStat where
  lang : String
  percentage : ℚ
  color : String
deriving DecidableEq, Repr

/-- The rounding `Number.prototype.toFixed(1)` on the exact value: round
to the nearest tenth, the larger candidate on a tie. -/
def toFixed1 (q : ℚ) : ℚ :=
  ((⌊10 * q + 1 / 2⌋ : ℤ) : ℚ) / 10

/-- The final `sorted.map(([lang, bytes]) => ...)` of `getLanguageStats`:
`percentage = ((bytes / total) * 100).toFixed(1)` with the color lookup. -/
def getLanguageStats (repos : List RepoLanguages) : List LangStat :=
  (rankedEntries repos).map (fun p =>
    { lang := p.1
      percentage := toFixed1 (((p.2 : ℚ) / retainedTotal repos) * 100)
      color := colorOf p.1 })

/-! ### Helper lemmas about the aggregation loop -/

lemma foldl_addRepo_filter (repos : List RepoLanguages) :
    ∀ acc, repos.foldl addRepo acc
      = (repos.filter (fun r => !r.fork)).foldl addRepo acc := by
  induction repos with
  | nil => intro acc; rfl
  | cons r rest ih =>
    intro acc
    by_cases hr : r.fork
    · simp [List.filter_cons, hr, addRepo, ih]
    · simp [List.filter_cons, hr, addRepo, ih]

lemma foldl_addRepo_trivial :
    ∀ (repos : List RepoLanguages),
      (∀ r ∈ repos, r.fork = true ∨ r.languages = []) →
      ∀ acc, repos.foldl addRepo acc = acc := by
  intro repos
  induction repos with
  | nil => intro _ acc; rfl
  | cons r rest ih =>
    intro h acc
    have hr := h r (List.mem_cons_self r rest)
    have hstep : addRepo acc r = acc := by
      rcases hr with hf | hl
      · simp [addRepo, hf]
      · simp [addRepo, hl, addAll]
    rw [List.foldl_cons, hstep,
      ih (fun x hx => h x (List.mem_cons_of_mem r hx)) acc]

/-! ### Helper lemmas about the streak loops -/

lemma currentStreakLoop_le (today : Int) :
    ∀ (l : List ContributionDay) (acc : Nat),
      currentStreakLoop today l acc
        ≤ acc + (l.filter (fun d => 0 < d.count)).length := by
  intro l
  induction l with
  | nil => intro acc; simp [currentStreakLoop]
  | cons d rest ih =>
    intro acc
    have h1 := ih (acc + 1)
    have h2 := ih acc
    rw [currentStreakLoop]
    by_cases hp : 0 < d.count
    · simp only [List.filter_cons, decide_eq_true_eq, hp, if_pos,
        List.length_cons]
      split_ifs <;> omega
    · simp only [List.filter_cons, decide_eq_true_eq, hp, if_neg,
        not_false_iff]
      split_ifs <;> omega

lemma longestStreakLoop_le :
    ∀ (l : List ContributionDay) (longest temp : Nat),
      longestStreakLoop l longest temp
        ≤ max longest (temp + (l.filter (fun d => 0 < d.count)).length) := by
  intro l
  induction l with
  | nil => intro longest temp; simp [longestStreakLoop]
  | cons d rest ih =>
    intro longest temp
    rw [longestStreakLoop]
    by_cases hp : 0 < d.count
    · have h1 := ih (max longest (temp + 1)) (temp + 1)
      simp only [List.filter_cons, decide_eq_true_eq, hp, if_pos,
        List.length_cons]
      omega
    · have h1 := ih longest 0
      simp only [List.filter_cons, decide_eq_true_eq, hp, if_neg,
        not_false_iff]
      omega

/-! ### Claim theorems, first batch -/

/-- Claim C5: no byte count from a fork-flagged usage record contributes
to any returned language stat: `getLanguageStats` yields the same result
when all fork records are removed from the input. -/
theorem c5_fork_records_never_contribute (repos : List RepoLanguages) :
    getLanguageStats repos
      = getLanguageStats (repos.filter (fun r => !r.fork)) := by
  have h : aggregate repos = aggregate (repos.filter (fun r => !r.fork)) :=
    foldl_addRepo_filter repos []
  simp [getLanguageStats, rankedEntries, retainedTotal, h]

/-- Claim C9: both computations are deterministic; with the day list,
`today`, and the repository list as the only inputs, two runs on
identical inputs return identical results. -/
theorem c9_deterministic (days : List ContributionDay) (today : Int)
    (repos : List RepoLanguages) :
    getStreakStats days today = getStreakStats days today ∧
    getLanguageStats repos = getLanguageStats repos :=
  ⟨rfl, rfl⟩

/-- Claim C8: an input whose records are all fork-flagged or contribute
zero languages (in particular the empty input) yields the empty ranking,
so the percentage division is never reached. -/
theorem c8_degenerate_input_empty_result (repos : List RepoLanguages)
    (h : ∀ r ∈ repos, r.fork = true ∨ r.languages = []) :
    getLanguageStats repos = [] := by
  have hagg : aggregate repos = [] := foldl_addRepo_trivial repos h []
  simp [getLanguageStats, rankedEntries, hagg, sortDesc]

/-- Witness for the claim C8 theorem at a concrete degenerate input. -/
theorem c8_degenerate_input_empty_result_witness :
    getLanguageStats [⟨true, [("Go", 5)]⟩, ⟨false, []⟩] = [] :=
  c8_degenerate_input_empty_result _ (by decide)

/-- Claim C10: when the most recent entry predates `today` by one or
more whole days, the backward scan stops on its first iteration and the
current streak is 0, whatever the activity counts. -/
theorem c10_stale_latest_entry_zero_streak (days : List ContributionDay)
    (today : Int) (d : ContributionDay) (hasc : Ascending days)
    (hlast : days.getLast? = some d) (hstale : 1 ≤ today - d.date) :
    (getStreakStats days today).currentStreak = 0 := by
  have hrev : days.reverse.head? = some d := by
    rw [List.head?_reverse, hlast]
  match hr : days.reverse with
  | [] => rw [hr] at hrev; exact absurd hrev (by simp)
  | e :: rest =>
    rw [hr] at hrev
    simp only [List.head?_cons, Option.some_inj] at hrev
    have hc : today - e.date > ((0 : Nat) : Int) := by
      rw [hrev]; push_cast; omega
    show currentStreakLoop today days.reverse 0 = 0
    rw [hr, currentStreakLoop, if_pos hc]

/-- Witness for the claim C10 theorem: three active days all before
`today = 3`. -/
theorem c10_stale_latest_entry_zero_streak_witness :
    (getStreakStats [⟨0, 1⟩, ⟨1, 1⟩, ⟨2, 1⟩] 3).currentStreak = 0 :=
  c10_stale_latest_entry_zero_streak _ 3 ⟨2, 1⟩ (by decide) (by decide)
    (by decide)

/-- Claim C3: on a valid (strictly ascending, hence duplicate-free) day
sequence, `activeDaysThisYear ≥ longestStreak ≥ 0` and
`activeDaysThisYear ≥ currentStreak ≥ 0`. -/
theorem c3_streak_bounds (days : List ContributionDay) (today : Int)
    (hasc : Ascending days) :
    ((getStreakStats days today).longestStreak
        ≤ (getStreakStats days today).activeDaysThisYear ∧
      0 ≤ (getStreakStats days today).longestStreak) ∧
    ((getStreakStats days today).currentStreak
        ≤ (getStreakStats days today).activeDaysThisYear ∧
      0 ≤ (getStreakStats days today).currentStreak) := by
  refine ⟨⟨?_, Nat.zero_le _⟩, ⟨?_, Nat.zero_le _⟩⟩
  · have h := longestStreakLoop_le days 0 0
    simpa [getStreakStats, activeDaysCount] using h
  · have h := currentStreakLoop_le today days.reverse 0
    have hlen : (days.reverse.filter (fun d => 0 < d.count)).length
        = (days.filter (fun d => 0 < d.count)).length := by
      rw [List.filter_reverse, List.length_reverse]
    simpa [getStreakStats, currentStreak, activeDaysCount, hlen] using h

/-! ### Claim C1: the current-streak backward scan -/

/-- The two-state scanner the spec describes for the current streak:
either the streak has not yet started (leading zero-count days do not
break anything) or it is counting with a positive counter. -/
inductive ScanState where
  | notStarted : ScanState
  | counting : Nat → ScanState
deriving DecidableEq, Repr

/-- The streak counter accumulated so far in a scanner state. -/
def streakOfState : ScanState → Nat
  | .notStarted => 0
  | .counting n => n

/-- The spec's backward scan, stated from its words: walk the day list
from the most recent entry backward; stop when the whole-day difference
between `today` and the examined entry exceeds the counter accumulated
so far; on `count > 0` increment the counter; on a zero count stop only
if the counter is already positive, otherwise keep scanning. -/
def specScan (today : Int) : List ContributionDay → ScanState → Nat
  | [], s => streakOfState s
  | d :: rest, s =>
    if today - d.date > (streakOfState s : Int) then streakOfState s
    else
      match s with
      | .notStarted =>
          if 0 < d.count then specScan today rest (.counting 1)
          else specScan today rest .notStarted
      | .counting n =>
          if 0 < d.count then specScan today rest (.counting (n + 1))
          else n

/-- The spec's current streak: scan the reversed (most recent first) day
list starting in the not-yet-started state. -/
def specCurrentStreak (days : List ContributionDay) (today : Int) : Nat :=
  specScan today days.reverse .notStarted

lemma specScan_eq_loop (today : Int) :
    ∀ l : List ContributionDay,
      specScan today l .notStarted = currentStreakLoop today l 0 ∧
      ∀ n : Nat, 1 ≤ n →
        specScan today l (.counting n) = currentStreakLoop today l n := by
  intro l
  induction l with
  | nil => exact ⟨rfl, fun _ _ => rfl⟩
  | cons d rest ih =>
    constructor
    · rw [specScan, currentStreakLoop]
      simp only [streakOfState]
      split_ifs with h1 h2 h3
      · rfl
      · exact ih.2 1 le_rfl
      · exact absurd h3 (by omega)
      · exact ih.1
    · intro n hn
      rw [specScan, currentStreakLoop]
      simp only [streakOfState]
      split_ifs with h1 h2 h3
      · rfl
      · exact ih.2 (n + 1) (by omega)
      · rfl
      · exact absurd hn (by omega)

/-- Claim C1: on an ascending, gapless calendar, the current streak
returned by `getStreakStats` equals the spec's backward scan from the
most recent entry. -/
theorem c1_current_streak_matches_backward_scan
    (days : List ContributionDay) (today : Int)
    (hasc : Ascending days) (hgap : Gapless days) :
    (getStreakStats days today).currentStreak
      = specCurrentStreak days today := by
  show currentStreakLoop today days.reverse 0
      = specScan today days.reverse .notStarted
  exact (specScan_eq_loop today days.reverse).1.symm

/-- Witness for the claim C1 theorem on a concrete gapless calendar. -/
theorem c1_current_streak_matches_backward_scan_witness :
    (getStreakStats [⟨0, 0⟩, ⟨1, 2⟩, ⟨2, 1⟩] 2).currentStreak
      = specCurrentStreak [⟨0, 0⟩, ⟨1, 2⟩, ⟨2, 1⟩] 2 :=
  c1_current_streak_matches_backward_scan _ 2 (by decide) (by decide)

/-! ### Claim C4: the longest streak -/

/-- The length of the run of consecutive active days at the head of the
list. -/
def activeRun (days : List ContributionDay) : Nat :=
  (days.takeWhile (fun d => 0 < d.count)).length

/-- The spec's characterization of the longest streak: the length of the
maximal run of consecutive entries with nonzero count, i.e. the largest
active run starting at any position of the list. -/
def maxRunLength (days : List ContributionDay) : Nat :=
  (days.tails.map activeRun).foldr max 0

lemma maxRunLength_cons (d : ContributionDay) (l : List ContributionDay) :
    maxRunLength (d :: l) = max (activeRun (d :: l)) (maxRunLength l) := by
  rw [maxRunLength, List.tails_cons, List.map_cons, List.foldr_cons]
  rfl

lemma activeRun_le_maxRunLength (l : List ContributionDay) :
    activeRun l ≤ maxRunLength l := by
  cases l with
  | nil => exact le_rfl
  | cons d l => rw [maxRunLength_cons]; exact le_max_left _ _

/-- The largest streak reachable from the remaining list when the run in
progress already has length `t`. -/
def maxCarry : List ContributionDay → Nat → Nat
  | [], _ => 0
  | d :: l, t =>
    if 0 < d.count then max (t + 1) (maxCarry l (t + 1)) else maxCarry l 0

lemma longestStreakLoop_eq_maxCarry :
    ∀ (l : List ContributionDay) (longest temp : Nat),
      longestStreakLoop l longest temp = max longest (maxCarry l temp) := by
  intro l
  induction l with
  | nil => intro longest temp; simp [longestStreakLoop, maxCarry]
  | cons d l ih =>
    intro longest temp
    rw [longestStreakLoop, maxCarry]
    by_cases hp : 0 < d.count
    · rw [if_pos hp, if_pos hp, ih]
      omega
    · rw [if_neg hp, if_neg hp, ih]

lemma maxCarry_eq (l : List ContributionDay) :
    ∀ t, maxCarry l t
      = if activeRun l = 0 then maxRunLength l
        else max (t + activeRun l) (maxRunLength l) := by
  induction l with
  | nil => intro t; simp [maxCarry, activeRun, maxRunLength]
  | cons d l ih =>
    intro t
    by_cases hp : 0 < d.count
    · have har : activeRun (d :: l) = activeRun l + 1 := by
        simp [activeRun, List.takeWhile_cons, hp]
      rw [maxCarry, if_pos hp, ih (t + 1), maxRunLength_cons, har]
      have hle := activeRun_le_maxRunLength l
      split_ifs <;> first | exact False.elim (by assumption) | omega
    · have har : activeRun (d :: l) = 0 := by
        simp [activeRun, List.takeWhile_cons, hp]
      rw [maxCarry, if_neg hp, ih 0, maxRunLength_cons, har]
      have hle := activeRun_le_maxRunLength l
      split_ifs <;> first | exact False.elim (by assumption) | omega

/-- Claim C4: the longest streak returned by the single forward pass of
`getStreakStats` equals the length of the maximal run of consecutive
entries with nonzero count. -/
theorem c4_longest_streak_is_max_run (days : List ContributionDay)
    (today : Int) (hasc : Ascending days) :
    (getStreakStats days today).longestStreak = maxRunLength days := by
  show longestStreakLoop days 0 0 = maxRunLength days
  rw [longestStreakLoop_eq_maxCarry days 0 0, maxCarry_eq days 0]
  have hle := activeRun_le_maxRunLength days
  split_ifs <;> omega

/-- Witness for the claim C4 theorem at the spec's example calendar. -/
theorem c4_longest_streak_is_max_run_witness :
    (getStreakStats [⟨-4, 1⟩, ⟨-3, 1⟩, ⟨-2, 0⟩, ⟨-1, 1⟩, ⟨0, 1⟩] 0).longestStreak
      = maxRunLength [⟨-4, 1⟩, ⟨-3, 1⟩, ⟨-2, 0⟩, ⟨-1, 1⟩, ⟨0, 1⟩] :=
  c4_longest_streak_is_max_run _ 0 (by decide)

/-- Witness for the claim C3 theorem at the spec's example calendar. -/
theorem c3_streak_bounds_witness :
    ((getStreakStats [⟨-4, 1⟩, ⟨-3, 1⟩, ⟨-2, 0⟩, ⟨-1, 1⟩, ⟨0, 1⟩] 0).longestStreak
        ≤ (getStreakStats [⟨-4, 1⟩, ⟨-3, 1⟩, ⟨-2, 0⟩, ⟨-1, 1⟩, ⟨0, 1⟩] 0).activeDaysThisYear ∧
      0 ≤ (getStreakStats [⟨-4, 1⟩, ⟨-3, 1⟩, ⟨-2, 0⟩, ⟨-1, 1⟩, ⟨0, 1⟩] 0).longestStreak) ∧
    ((getStreakStats [⟨-4, 1⟩, ⟨-3, 1⟩, ⟨-2, 0⟩, ⟨-1, 1⟩, ⟨0, 1⟩] 0).currentStreak
        ≤ (getStreakStats [⟨-4, 1⟩, ⟨-3, 1⟩, ⟨-2, 0⟩, ⟨-1, 1⟩, ⟨0, 1⟩] 0).activeDaysThisYear ∧
      0 ≤ (getStreakStats [⟨-4, 1⟩, ⟨-3, 1⟩, ⟨-2, 0⟩, ⟨-1, 1⟩, ⟨0, 1⟩] 0).currentStreak) :=
  c3_streak_bounds _ 0 (by decide)

/-! ### Claim C2: percentages over the retained total -/

/-- The spec's rounding: one decimal place, standard round-half-up. -/
def specRoundHalfUp (q : ℚ) : ℚ :=
  ((⌊10 * q + 1 / 2⌋ : ℤ) : ℚ) / 10

/-- Claim C2: when the retained set is non-empty, every returned entry's
percentage equals 100 times its aggregated byte count divided by the
byte total of the retained entries only, rounded half-up to one decimal
place. -/
theorem c2_percentage_over_retained_total (repos : List RepoLanguages)
    (hne : rankedEntries repos ≠ []) (i : Nat) (p : String × Nat)
    (hp : (rankedEntries repos)[i]? = some p) :
    (getLanguageStats repos)[i]?
      = some { lang := p.1
               percentage :=
                 specRoundHalfUp (100 * (p.2 : ℚ) / retainedTotal repos)
               color := colorOf p.1 } := by
  rw [getLanguageStats, List.getElem?_map, hp, Option.map_some']
  have harg : (10 : ℚ) * ((p.2 : ℚ) / retainedTotal repos * 100) + 1 / 2
      = 10 * (100 * (p.2 : ℚ) / retainedTotal repos) + 1 / 2 := by ring
  rw [toFixed1, specRoundHalfUp, harg]

/-- Witness for the claim C2 theorem at the spec's example input. -/
theorem c2_percentage_over_retained_total_witness :
    (getLanguageStats [⟨false, [("Go", 300), ("Rust", 100)]⟩,
        ⟨true, [("Go", 99999)]⟩, ⟨false, [("Rust", 100)]⟩])[0]?
      = some { lang := "Go"
               percentage :=
                 specRoundHalfUp (100 * ((300 : Nat) : ℚ)
                   / retainedTotal [⟨false, [("Go", 300), ("Rust", 100)]⟩,
                       ⟨true, [("Go", 99999)]⟩, ⟨false, [("Rust", 100)]⟩])
               color := colorOf ("Go") } :=
  c2_percentage_over_retained_total _ (by decide) 0 ("Go", 300) (by decide)

/-! ### First-occurrence order of language names -/

/-- The language entries of the non-fork records, flattened in input
order (the order in which the aggregation loop visits them). -/
def flatPairs : List RepoLanguages → List (String × Nat)
  | [] => []
  | r :: rest => if r.fork then flatPairs rest else r.languages ++ flatPairs rest

/-- The language-name stream of the non-fork records, in input order. -/
def flatKeys (repos : List RepoLanguages) : List String :=
  (flatPairs repos).map Prod.fst

/-- The distinct names of a name stream, each listed at its first
occurrence. -/
def firstOccs : List String → List String
  | [] => []
  | a :: l => a :: (firstOccs l).filter (fun x => x ≠ a)

/-- The distinct language names contributed by the non-fork records, in
first-occurrence order. -/
def distinctLangs (repos : List RepoLanguages) : List String :=
  firstOccs (flatKeys repos)

/-- The position of the first occurrence of `k` in a name stream (the
stream's length when `k` never occurs). -/
def firstIdx (k : String) : List String → Nat
  | [] => 0
  | a :: l => if a = k then 0 else firstIdx k l + 1

/-- The effect of one `addBytes` step on the key list alone. -/
def insertKey (ks : List String) (k : String) : List String :=
  if k ∈ ks then ks else ks ++ [k]

/-- The effect of a run of `addBytes` steps on the key list alone. -/
def keysFold (ks : List String) (l : List String) : List String :=
  l.foldl insertKey ks

lemma keys_addBytes (s : List (String × Nat)) (lang : String) (bytes : Nat) :
    (addBytes s lang bytes).map Prod.fst = insertKey (s.map Prod.fst) lang := by
  induction s with
  | nil => simp [addBytes, insertKey]
  | cons q rest ih =>
    obtain ⟨l, b⟩ := q
    by_cases hl : l = lang
    · subst hl
      simp [addBytes, insertKey]
    · rw [addBytes, if_neg hl]
      rw [List.map_cons, ih, List.map_cons, insertKey, insertKey]
      have hmem : lang ∈ l :: List.map Prod.fst rest ↔ lang ∈ List.map Prod.fst rest := by
        constructor
        · intro h
          rcases List.mem_cons.mp h with h1 | h2
          · exact absurd h1.symm hl
          · exact h2
        · exact fun h => List.mem_cons_of_mem _ h
      by_cases hm : lang ∈ List.map Prod.fst rest
      · rw [if_pos hm, if_pos (hmem.mpr hm)]
      · rw [if_neg hm, if_neg (fun h => hm (hmem.mp h))]
        simp

lemma keys_addAll :
    ∀ (l : List (String × Nat)) (acc : List (String × Nat)),
      (addAll acc l).map Prod.fst = keysFold (acc.map Prod.fst) (l.map Prod.fst) := by
  intro l
  induction l with
  | nil => intro acc; rfl
  | cons p rest ih =>
    intro acc
    show (addAll (addBytes acc p.1 p.2) rest).map Prod.fst = _
    rw [ih, keys_addBytes]
    rfl

lemma foldl_addRepo_eq_addAll_flatPairs :
    ∀ (repos : List RepoLanguages) (acc : List (String × Nat)),
      repos.foldl addRepo acc = addAll acc (flatPairs repos) := by
  intro repos
  induction repos with
  | nil => intro acc; rfl
  | cons r rest ih =>
    intro acc
    by_cases hr : r.fork
    · rw [List.foldl_cons, flatPairs, if_pos hr, addRepo, if_pos hr, ih]
    · rw [List.foldl_cons, flatPairs, if_neg hr, addRepo, if_neg hr, ih]
      rw [addAll, addAll, addAll, List.foldl_append]

lemma keysFold_eq_firstOccs :
    ∀ (l : List String) (ks : List String),
      keysFold ks l = ks ++ (firstOccs l).filter (fun x => x ∉ ks) := by
  intro l
  induction l with
  | nil => intro ks; simp [keysFold, firstOccs]
  | cons a l ih =>
    intro ks
    show keysFold (insertKey ks a) l = _
    rw [ih, firstOccs]
    by_cases ha : a ∈ ks
    · rw [insertKey, if_pos ha, List.filter_cons]
      have hde : (decide (a ∉ ks)) = false := by simp [ha]
      rw [hde]
      simp only [Bool.false_eq_true, if_false]
      congr 1
      rw [List.filter_filter]
      refine List.filter_congr ?_
      intro x _
      by_cases hx : x ∈ ks
      · simp [hx]
      · have : x ≠ a := fun h => hx (h ▸ ha)
        simp [hx, this]
    · rw [insertKey, if_neg ha, List.filter_cons]
      have hde : (decide (a ∉ ks)) = true := by simp [ha]
      rw [hde]
      simp only [if_true]
      rw [List.append_assoc]
      congr 1
      show [a] ++ _ = a :: _
      rw [List.singleton_append]
      congr 1
      rw [List.filter_filter]
      refine List.filter_congr ?_
      intro x _
      by_cases hxa : x = a
      · subst hxa
        simp
      · by_cases hx : x ∈ ks <;> simp [hx, hxa]

/-- The keys of the aggregated map are exactly the distinct language
names of the non-fork records, in first-occurrence order. -/
lemma keys_aggregate (repos : List RepoLanguages) :
    (aggregate repos).map Prod.fst = distinctLangs repos := by
  rw [aggregate, foldl_addRepo_eq_addAll_flatPairs, keys_addAll]
  show keysFold [] (flatKeys repos) = _
  rw [keysFold_eq_firstOccs, List.nil_append, distinctLangs]
  refine List.filter_eq_self.mpr ?_
  intro x _
  simp

/-! ### The sort is a permutation -/

lemma insertDesc_perm (x : String × Nat) :
    ∀ l : List (String × Nat), (insertDesc x l).Perm (x :: l) := by
  intro l
  induction l with
  | nil => exact List.Perm.refl _
  | cons y ys ih =>
    rw [insertDesc]
    by_cases hc : x.2 < y.2
    · rw [if_pos hc]
      exact (ih.cons y).trans (List.Perm.swap x y ys)
    · rw [if_neg hc]

lemma sortDesc_perm : ∀ l : List (String × Nat), (sortDesc l).Perm l := by
  intro l
  induction l with
  | nil => exact List.Perm.refl _
  | cons a l ih =>
    show (insertDesc a (sortDesc l)).Perm (a :: l)
    exact (insertDesc_perm a (sortDesc l)).trans (ih.cons a)

/-! ### Claim C7: truncation to the top 8 -/

lemma length_aggregate (repos : List RepoLanguages) :
    (aggregate repos).length = (distinctLangs repos).length := by
  rw [← keys_aggregate repos, List.length_map]

/-- Claim C7: with more than 8 (the hard-coded limit) distinct language
names among the non-fork records the ranking returns exactly 8 entries;
with at most 8 it returns one entry per distinct language. -/
theorem c7_limit_truncation (repos : List RepoLanguages) :
    (8 < (distinctLangs repos).length → (getLanguageStats repos).length = 8) ∧
    ((distinctLangs repos).length ≤ 8 →
      (getLanguageStats repos).length = (distinctLangs repos).length) := by
  have hlen : (getLanguageStats repos).length
      = min 8 (distinctLangs repos).length := by
    rw [getLanguageStats, List.length_map, rankedEntries, List.length_take,
      (sortDesc_perm (aggregate repos)).length_eq, length_aggregate]
  constructor
  · intro h; rw [hlen]; omega
  · intro h; rw [hlen]; omega

/-- Witness for the claim C7 theorem: ten distinct languages are cut
down to exactly 8 entries. -/
theorem c7_limit_truncation_witness :
    (getLanguageStats [⟨false,
        [("a", 1), ("b", 1), ("c", 2), ("d", 1), ("e", 1),
         ("f", 1), ("g", 3), ("h", 1), ("i", 1), ("j", 1)]⟩]).length = 8 :=
  (c7_limit_truncation _).1 (by decide)

/-! ### Claim C6: stability of the ranking -/

/-- The ordering the returned ranking satisfies: strictly more
aggregated bytes first, a tie resolved in favor of the language whose
first occurrence in the non-fork input stream `fk` came earlier. -/
def rankRel (fk : List String) (a b : String × Nat) : Prop :=
  b.2 < a.2 ∨ (a.2 = b.2 ∧ firstIdx a.1 fk < firstIdx b.1 fk)

lemma mem_insertDesc {x y : String × Nat} {l : List (String × Nat)}
    (h : y ∈ insertDesc x l) : y = x ∨ y ∈ l :=
  List.mem_cons.mp ((insertDesc_perm x l).mem_iff.mp h)

lemma pairwise_firstIdx_filter_ne (a : String) (L : List String)
    (l : List String) (hne : ∀ x ∈ L, x ≠ a)
    (hpw : L.Pairwise (fun x y => firstIdx x l < firstIdx y l)) :
    L.Pairwise (fun x y => firstIdx x (a :: l) < firstIdx y (a :: l)) := by
  refine List.Pairwise.imp_of_mem ?_ hpw
  intro x y hx hy h
  simp only [firstIdx]
  rw [if_neg (fun he => (hne x hx) he.symm),
    if_neg (fun he => (hne y hy) he.symm)]
  omega

lemma pairwise_firstIdx_firstOccs :
    ∀ ks : List String,
      (firstOccs ks).Pairwise (fun a b => firstIdx a ks < firstIdx b ks) := by
  intro ks
  induction ks with
  | nil => exact List.Pairwise.nil
  | cons a l ih =>
    rw [firstOccs]
    refine List.Pairwise.cons ?_ ?_
    · intro b hb
      have hbne : b ≠ a := by
        have h2 := (List.mem_filter.mp hb).2
        simpa using h2
      simp only [firstIdx]
      rw [if_pos trivial, if_neg (fun h => hbne h.symm)]
      omega
    · have hpw : ((firstOccs l).filter (fun x => x ≠ a)).Pairwise
          (fun x y => firstIdx x l < firstIdx y l) :=
        List.Pairwise.sublist (List.filter_sublist _) ih
      refine pairwise_firstIdx_filter_ne a _ l ?_ hpw
      intro x hx
      have h2 := (List.mem_filter.mp hx).2
      simpa using h2

lemma pairwise_insertDesc (fk : List String) (x : String × Nat) :
    ∀ l : List (String × Nat),
      l.Pairwise (rankRel fk) →
      (∀ y ∈ l, firstIdx x.1 fk < firstIdx y.1 fk) →
      (insertDesc x l).Pairwise (rankRel fk) := by
  intro l
  induction l with
  | nil =>
    intro _ _
    exact List.pairwise_singleton _ _
  | cons y ys ih =>
    intro hl hx
    cases hl with
    | cons hy hys =>
      rw [insertDesc]
      by_cases hc : x.2 < y.2
      · rw [if_pos hc]
        refine List.Pairwise.cons ?_ (ih hys ?_)
        · intro z hz
          rcases mem_insertDesc hz with rfl | hz'
          · exact Or.inl hc
          · exact hy z hz'
        · intro z hz
          exact hx z (List.mem_cons_of_mem _ hz)
      · rw [if_neg hc]
        have hyx : y.2 ≤ x.2 := Nat.le_of_not_lt hc
        refine List.Pairwise.cons ?_ (List.Pairwise.cons hy hys)
        intro z hz
        rcases List.mem_cons.mp hz with rfl | hz'
        · rcases Nat.lt_or_ge z.2 x.2 with h | h
          · exact Or.inl h
          · exact Or.inr ⟨Nat.le_antisymm h hyx,
              hx z (List.mem_cons_self _ _)⟩
        · rcases hy z hz' with h | ⟨heq, hord⟩
          · exact Or.inl (Nat.lt_of_lt_of_le h hyx)
          · rcases Nat.lt_or_ge z.2 x.2 with h2 | h2
            · exact Or.inl h2
            · exact Or.inr ⟨Nat.le_antisymm h2 (heq ▸ hyx),
                hx z (List.mem_cons_of_mem _ hz')⟩

lemma pairwise_sortDesc (fk : List String) :
    ∀ l : List (String × Nat),
      l.Pairwise (fun a b => firstIdx a.1 fk < firstIdx b.1 fk) →
      (sortDesc l).Pairwise (rankRel fk) := by
  intro l
  induction l with
  | nil => intro _; exact List.Pairwise.nil
  | cons a l ih =>
    intro hl
    cases hl with
    | cons ha hl' =>
      show (insertDesc a (sortDesc l)).Pairwise (rankRel fk)
      refine pairwise_insertDesc fk a (sortDesc l) (ih hl') ?_
      intro y hy
      exact ha y ((sortDesc_perm l).mem_iff.mp hy)

/-- Claim C6: the returned ranking is ordered by aggregated byte count
descending, with any tie resolved in favor of the language whose first
occurrence in the non-fork input stream came earlier; moreover every
retained entry is an entry of the aggregated map, so its byte component
is the language's aggregated byte count. -/
theorem c6_ranking_stable (repos : List RepoLanguages) :
    (rankedEntries repos).Pairwise (rankRel (flatKeys repos)) ∧
    ∀ p ∈ rankedEntries repos, p ∈ aggregate repos := by
  have hmap : ((aggregate repos).map Prod.fst).Pairwise
      (fun a b => firstIdx a (flatKeys repos) < firstIdx b (flatKeys repos)) := by
    rw [keys_aggregate repos]
    exact pairwise_firstIdx_firstOccs (flatKeys repos)
  have hagg : (aggregate repos).Pairwise
      (fun a b => firstIdx a.1 (flatKeys repos) < firstIdx b.1 (flatKeys repos)) :=
    (List.pairwise_map
      (R := fun a b => firstIdx a (flatKeys repos) < firstIdx b (flatKeys repos))
      (f := Prod.fst)).mp hmap
  constructor
  · exact List.Pairwise.sublist (List.take_sublist _ _)
      (pairwise_sortDesc (flatKeys repos) (aggregate repos) hagg)
  · intro p hp
    exact (sortDesc_perm (aggregate repos)).mem_iff.mp
      (List.take_subset _ _ hp)

end UpdateStats
